import Mathlib

/-!
Verification of the CAG_Restaurant retrieval-augmented query pipeline.

The development shallowly embeds the core of `cag_system.py`,
`cag_system_fast.py` and the caller-facing endpoint of `api.py`:
text is a list of characters, Python slices are explicit clamped
`take`/`drop`, the `_split_text` while-loop is fuel-indexed (so that
non-termination is observable as `none`), the Chroma collection is a list
of stored entries, and fallible Python code returns `Except`.
-/

namespace CAG

/-- Text is modelled as a list of characters (Python `str`). -/
abbrev Str := List Char

/-- Shorthand turning a Lean string literal into the character-list model. -/
def lit (s : String) : Str := s.data

/-- Python index clamping for a slice bound `i` on a sequence of length `len`:
a negative index counts from the end, and the result is clamped to `[0, len]`. -/
def pyIndex (len : Nat) (i : Int) : Nat :=
  if i < 0 then ((len : Int) + i).toNat else min i.toNat len

/-- Python slice `s[a:b]` (step 1). -/
def pySlice (s : Str) (a b : Int) : Str :=
  (s.take (pyIndex s.length b)).drop (pyIndex s.length a)

/-- Fuel-indexed unfolding of the `while start < text_length` loop of
`_split_text` (`cag_system.py` lines 80-92; `cag_system_fast.py` lines 70-82
is identical): `end = start + chunk_size; chunk = text[start:end];
chunks.append(chunk); start = end - overlap`.  `none` means the loop did not
finish within `fuel` iterations.  `start` is a Python `int` and may become
negative, hence `Int`. -/
def splitFuel (text : Str) (chunk_size overlap : Int) :
    Nat → Int → List Str → Option (List Str)
  | 0, _, _ => none
  | fuel + 1, start, chunks =>
      if start < (text.length : Int) then
        splitFuel text chunk_size overlap fuel (start + chunk_size - overlap)
          (chunks ++ [pySlice text start (start + chunk_size)])
      else
        some chunks

/-- `_split_text(text, chunk_size, overlap)` run for at most `fuel` loop
iterations, starting as in the source from `start = 0`, `chunks = []`. -/
def split_text (text : Str) (chunk_size overlap : Int) (fuel : Nat) :
    Option (List Str) :=
  splitFuel text chunk_size overlap fuel 0 []

theorem splitFuel_none_of_le (text : Str) (cs ov : Int) (hov : cs ≤ ov) :
    ∀ (fuel : Nat) (start : Int) (acc : List Str),
      start < (text.length : Int) → splitFuel text cs ov fuel start acc = none := by
  intro fuel
  induction fuel with
  | zero => intro start acc _; rfl
  | succ n ih =>
      intro start acc h
      simp only [splitFuel, if_pos h]
      exact ih _ _ (by omega)

/-- C1.  The claim says `_split_text` validates `overlap < chunk_size` before
the loop and raises `ChunkingConfigurationError`, emitting zero chunks.  The
code contains no such validation: for every non-empty text and every
`overlap >= chunk_size`, the loop never terminates — no amount of fuel makes
it return, so in particular it never raises a configuration error and never
returns a chunk list. -/
theorem c1_split_text_diverges_on_bad_overlap
    (text : Str) (htext : text ≠ []) (cs ov : Int) (hov : cs ≤ ov) (fuel : Nat) :
    split_text text cs ov fuel = none := by
  have hlen : 0 < (text.length : Int) := by
    have : text.length ≠ 0 := fun h => htext (List.length_eq_zero.mp h)
    omega
  exact splitFuel_none_of_le text cs ov hov fuel 0 [] hlen

/-- Witness for C1 at the spec's own failing input `chunk_size=500,
overlap=1000` on the concrete text `"menu"`. -/
theorem c1_split_text_diverges_on_bad_overlap_witness :
    lit "menu" ≠ [] ∧ (500 : Int) ≤ 1000 ∧
      split_text (lit "menu") 500 1000 7 = none :=
  ⟨by decide, by decide,
    c1_split_text_diverges_on_bad_overlap (lit "menu") (by decide) 500 1000
      (by decide) 7⟩

theorem splitFuel_acc (t : Str) (cs ov : Int) :
    ∀ (fuel : Nat) (s : Int) (acc : List Str),
      splitFuel t cs ov fuel s acc =
        (splitFuel t cs ov fuel s []).map (acc ++ ·) := by
  intro fuel
  induction fuel with
  | zero => intro s acc; rfl
  | succ n ih =>
      intro s acc
      by_cases h : s < (t.length : Int)
      · simp only [splitFuel, if_pos h]
        rw [ih _ (acc ++ [pySlice t s (s + cs)]), ih _ ([] ++ [pySlice t s (s + cs)])]
        cases splitFuel t cs ov n (s + cs - ov) [] <;> simp
      · simp only [splitFuel, if_neg h, Option.map_some']
        simp

theorem splitFuel_terminates (t : Str) (cs ov : Int) (hov : ov < cs) :
    ∀ (fuel : Nat) (s : Int), ((t.length : Int) - s).toNat < fuel →
      ∃ out, splitFuel t cs ov fuel s [] = some out := by
  intro fuel
  induction fuel with
  | zero => intro s h; omega
  | succ n ih =>
      intro s h
      by_cases hs : s < (t.length : Int)
      · simp only [splitFuel, if_pos hs]
        obtain ⟨out, hout⟩ := ih (s + cs - ov) (by omega)
        refine ⟨[pySlice t s (s + cs)] ++ out, ?_⟩
        rw [splitFuel_acc, hout]
        rfl
      · exact ⟨[], by simp [splitFuel, if_neg hs]⟩

theorem pySlice_nonneg_eq (t : Str) (a b : Int) (ha : 0 ≤ a) (hb : 0 ≤ b) :
    pySlice t a b = (t.take b.toNat).drop a.toNat := by
  unfold pySlice pyIndex
  have h1 : ¬ a < 0 := by omega
  have h2 : ¬ b < 0 := by omega
  simp only [h1, h2, if_false]
  rcases le_or_lt b.toNat t.length with hbl | hbl
  · rw [min_eq_left hbl]
    rcases le_or_lt a.toNat t.length with hal | hal
    · rw [min_eq_left hal]
    · rw [min_eq_right (le_of_lt hal)]
      have e1 : (t.take b.toNat).drop t.length = [] := by
        apply List.drop_eq_nil_of_le
        rw [List.length_take]
        exact le_trans (min_le_right _ _) le_rfl
      have e2 : (t.take b.toNat).drop a.toNat = [] := by
        apply List.drop_eq_nil_of_le
        rw [List.length_take]
        exact le_trans (min_le_right _ _) (le_of_lt hal)
      rw [e1, e2]
  · rw [min_eq_right (le_of_lt hbl), List.take_length,
        List.take_of_length_le (le_of_lt hbl)]
    rcases le_or_lt a.toNat t.length with hal | hal
    · rw [min_eq_left hal]
    · rw [min_eq_right (le_of_lt hal)]
      rw [List.drop_eq_nil_of_le (le_of_lt hal), List.drop_eq_nil_of_le le_rfl]

theorem take_drop_append (t : Str) (a m : Nat) (h : a ≤ m) :
    (t.take m).drop a ++ t.drop m = t.drop a := by
  conv_rhs => rw [← List.take_append_drop m t]
  rw [List.drop_append_eq_append_drop]
  congr 1
  rcases le_or_lt a t.length with hal | hal
  · have hz : a - (t.take m).length = 0 := by
      rw [List.length_take]
      rcases le_total m t.length with hm | hm
      · rw [min_eq_left hm]; omega
      · rw [min_eq_right hm]; omega
    rw [hz, List.drop_zero]
  · have h1 : (t.drop m) = [] := List.drop_eq_nil_of_le (by omega)
    rw [h1]
    simp

/-- Concatenating the chunks with the first `ov` characters of every chunk
after the first removed (the claim's reconstruction). -/
def reconstruct (ov : Nat) : List Str → Str
  | [] => []
  | c :: rest => c ++ (rest.map (fun d => d.drop ov)).flatten

theorem splitFuel_tail_recon (t : Str) (cs ov : Int) (h0 : 0 ≤ ov) (hlt : ov < cs) :
    ∀ (fuel : Nat) (s : Int) (out : List Str), 0 ≤ s →
      splitFuel t cs ov fuel s [] = some out →
      (out.map (fun c => c.drop ov.toNat)).flatten = t.drop (s.toNat + ov.toNat) := by
  intro fuel
  induction fuel with
  | zero => intro s out _ h; exact absurd h (by simp [splitFuel])
  | succ n ih =>
      intro s out hs hout
      by_cases h : s < (t.length : Int)
      · simp only [splitFuel, if_pos h] at hout
        rw [splitFuel_acc] at hout
        cases hrec : splitFuel t cs ov n (s + cs - ov) [] with
        | none => rw [hrec] at hout; exact absurd hout (by simp)
        | some rest =>
            rw [hrec] at hout
            simp only [Option.map_some', List.nil_append, List.singleton_append, Option.some.injEq] at hout
            subst hout
            have hrest := ih (s + cs - ov) rest (by omega) hrec
            simp only [List.map_cons, List.flatten_cons]
            
            rw [hrest]
            have hsplice : pySlice t s (s + cs) = (t.take (s + cs).toNat).drop s.toNat :=
              pySlice_nonneg_eq t s (s + cs) hs (by omega)
            rw [hsplice, List.drop_drop]
            have harith : (s + cs - ov).toNat + ov.toNat = (s + cs).toNat := by omega
            rw [harith]
            exact take_drop_append t (s.toNat + ov.toNat) (s + cs).toNat (by omega)
      · simp only [splitFuel, if_neg h, Option.some.injEq] at hout
        subst hout
        simp only [List.map_nil, List.flatten_nil]
        rw [eq_comm, List.drop_eq_nil_iff]
        omega

theorem splitFuel_get (t : Str) (cs ov : Int) (_h0 : 0 ≤ ov) (hlt : ov < cs) :
    ∀ (fuel : Nat) (s : Int) (out : List Str), 0 ≤ s →
      splitFuel t cs ov fuel s [] = some out →
      ∀ i (hi : i < out.length),
        out.get ⟨i, hi⟩ = pySlice t (s + i * (cs - ov)) (s + i * (cs - ov) + cs) := by
  intro fuel
  induction fuel with
  | zero => intro s out _ h; exact absurd h (by simp [splitFuel])
  | succ n ih =>
      intro s out hs hout
      by_cases h : s < (t.length : Int)
      · simp only [splitFuel, if_pos h] at hout
        rw [splitFuel_acc] at hout
        cases hrec : splitFuel t cs ov n (s + cs - ov) [] with
        | none => rw [hrec] at hout; exact absurd hout (by simp)
        | some rest =>
            rw [hrec] at hout
            simp only [Option.map_some', List.nil_append, List.singleton_append, Option.some.injEq] at hout
            subst hout
            intro i hi
            cases i with
            | zero => simp
            | succ j =>
                have hj : j < rest.length := by simpa using hi
                have := ih (s + cs - ov) rest (by omega) hrec j hj
                simp only [List.get_cons_succ]
                rw [this]
                congr 1 <;> push_cast <;> ring_nf
      · simp only [splitFuel, if_neg h, Option.some.injEq] at hout
        subst hout
        intro i hi
        exact absurd hi (by simp)

theorem pySlice_length (t : Str) (a cs : Nat) :
    (pySlice t (a : Int) ((a : Int) + (cs : Int))).length = min cs (t.length - a) := by
  rw [pySlice_nonneg_eq t _ _ (by omega) (by omega), List.length_drop, List.length_take]
  have h1 : ((a : Int) + (cs : Int)).toNat = a + cs := by omega
  have h2 : ((a : Int)).toNat = a := by omega
  rw [h1, h2]
  rcases le_total (a + cs) t.length with h | h
  · rw [min_eq_left h, min_eq_left (by omega : cs ≤ t.length - a)]
    omega
  · rw [min_eq_right h, min_eq_right (by omega : t.length - a ≤ cs)]

theorem splitFuel_cons (t : Str) (cs ov : Int) (fuel : Nat) (s : Int)
    (hs : s < (t.length : Int)) (out : List Str)
    (hout : splitFuel t cs ov (fuel + 1) s [] = some out) :
    ∃ rest, out = pySlice t s (s + cs) :: rest ∧
      splitFuel t cs ov fuel (s + cs - ov) [] = some rest := by
  simp only [splitFuel, if_pos hs] at hout
  rw [splitFuel_acc] at hout
  cases hrec : splitFuel t cs ov fuel (s + cs - ov) [] with
  | none => rw [hrec] at hout; exact absurd hout (by simp)
  | some r =>
      rw [hrec] at hout
      simp only [Option.map_some', List.nil_append, List.singleton_append,
        Option.some.injEq] at hout
      exact ⟨r, hout.symm, rfl⟩

/-- C2 (amended).  For `0 <= overlap < chunk_size` the splitter terminates
within `text.length + 1` iterations, the chunks reconstruct `text` exactly
(first chunk followed by each later chunk with its first `overlap` characters
dropped), and chunk `i` has length `min chunk_size (text.length - i*(chunk_size
- overlap))` — so chunks that reach the end of the text (not only the very last
one) may be shorter than `chunk_size`. -/
theorem c2_split_text_reconstruction (text : Str) (cs ov : Nat)
    (hcs : 0 < cs) (hov : ov < cs) :
    ∃ chunks, split_text text (cs : Int) (ov : Int) (text.length + 1) = some chunks ∧
      reconstruct ov chunks = text ∧
      ∀ i (hi : i < chunks.length),
        (chunks.get ⟨i, hi⟩).length = min cs (text.length - i * (cs - ov)) := by
  have hlt : (ov : Int) < (cs : Int) := by exact_mod_cast hov
  obtain ⟨out, hout⟩ := splitFuel_terminates text (cs : Int) (ov : Int) hlt
    (text.length + 1) 0 (by omega)
  refine ⟨out, hout, ?_, ?_⟩
  · by_cases htext : text = []
    · subst htext
      have hnil : out = [] := by
        have h := hout
        simp only [List.length_nil, Nat.cast_zero, lt_self_iff_false, if_false,
          splitFuel, Option.some.injEq] at h
        exact h.symm
      subst hnil
      rfl
    · have hpos : (0 : Int) < (text.length : Int) := by
        have : text.length ≠ 0 := fun hh => htext (List.length_eq_zero.mp hh)
        omega
      obtain ⟨rest, hcons, hrec⟩ :=
        splitFuel_cons text (cs : Int) (ov : Int) text.length 0 hpos out hout
      subst hcons
      simp only [reconstruct]
      have htail := splitFuel_tail_recon text (cs : Int) (ov : Int) (by omega) hlt
        text.length (0 + (cs : Int) - (ov : Int)) rest (by omega) hrec
      simp only [Int.toNat_natCast] at htail
      rw [htail]
      have harith : ((0 : Int) + (cs : Int) - (ov : Int)).toNat + ov = cs := by
        omega
      rw [harith]
      rw [pySlice_nonneg_eq text 0 (0 + (cs : Int)) le_rfl (by omega)]
      have hcs' : ((0 : Int) + (cs : Int)).toNat = cs := by omega
      have h0 : ((0 : Int)).toNat = 0 := rfl
      rw [hcs', h0, List.drop_zero, List.take_append_drop]
  · intro i hi
    have hget := splitFuel_get text (cs : Int) (ov : Int) (by omega) hlt
      (text.length + 1) 0 out le_rfl hout i hi
    rw [hget]
    have harith : (0 : Int) + (i : Nat) * ((cs : Int) - (ov : Int)) =
        ((i * (cs - ov) : Nat) : Int) := by
      rw [Nat.cast_mul, Nat.cast_sub hov.le]
      ring
    rw [harith]
    have harith2 : ((i * (cs - ov) : Nat) : Int) + (cs : Int) =
        ((i * (cs - ov) : Nat) : Int) + ((cs : Nat) : Int) := rfl
    rw [harith2]
    exact pySlice_length text (i * (cs - ov)) cs

/-- Witness for C2 (amended) at `text = "abcd"`, `chunk_size = 3`,
`overlap = 2`. -/
theorem c2_split_text_reconstruction_witness :
    0 < 3 ∧ 2 < 3 ∧
      ∃ chunks, split_text (lit "abcd") (3 : Int) (2 : Int) ((lit "abcd").length + 1) =
          some chunks ∧
        reconstruct 2 chunks = lit "abcd" ∧
        ∀ i (hi : i < chunks.length),
          (chunks.get ⟨i, hi⟩).length = min 3 ((lit "abcd").length - i * (3 - 2)) :=
  ⟨by decide, by decide,
    c2_split_text_reconstruction (lit "abcd") 3 2 (by decide) (by decide)⟩

/-- Counterexample to C2 as stated: at `text = "abcd"`, `chunk_size = 3`,
`overlap = 2` the splitter returns `["abc", "bcd", "cd", "d"]`, whose chunk
at index 2 is not the last chunk yet has length 2, not `chunk_size = 3` —
so it is false that every chunk except the last has length exactly
`chunk_size` (reconstruction itself does hold, see the amended theorem). -/
theorem c2_split_text_counterexample :
    split_text (lit "abcd") 3 2 5 =
      some [lit "abc", lit "bcd", lit "cd", lit "d"] ∧
    ¬ ∀ c ∈ [lit "abc", lit "bcd", lit "cd", lit "d"].dropLast, c.length = 3 := by
  constructor
  · decide
  · decide

/-! ### Document loading and ingestion (`setup_vectorstore`) -/

/-- Decimal digit characters, as produced by Python `f"{j}"`. -/
def digitChar : Nat → Char
  | 0 => '0'
  | 1 => '1'
  | 2 => '2'
  | 3 => '3'
  | 4 => '4'
  | 5 => '5'
  | 6 => '6'
  | 7 => '7'
  | 8 => '8'
  | 9 => '9'
  | _ => '?'

/-- Decimal rendering of a natural number (Python `f"{j}"`), fuel-indexed so
that it is structurally recursive; `natStr` supplies sufficient fuel. -/
def natStrAux : Nat → Nat → List Char
  | 0, _ => []
  | fuel + 1, n =>
      if n < 10 then [digitChar n]
      else natStrAux fuel (n / 10) ++ [digitChar (n % 10)]

/-- Decimal rendering of a natural number, as Python `f"{j}"` produces. -/
def natStr (n : Nat) : List Char := natStrAux (n + 1) n

def isDigitB (c : Char) : Bool :=
  decide (48 ≤ c.toNat) && decide (c.toNat ≤ 57)

def digitVal (c : Char) : Nat := c.toNat - 48

def strVal (l : List Char) : Nat :=
  l.foldl (fun acc c => acc * 10 + digitVal c) 0

theorem digitVal_digitChar : ∀ k, k < 10 → digitVal (digitChar k) = k := by decide

theorem isDigitB_digitChar : ∀ k, k < 10 → isDigitB (digitChar k) = true := by decide

theorem strVal_append_singleton (l : List Char) (c : Char) :
    strVal (l ++ [c]) = strVal l * 10 + digitVal c := by
  simp [strVal, List.foldl_append]

theorem natStrAux_val : ∀ (fuel n : Nat), n < fuel → strVal (natStrAux fuel n) = n := by
  intro fuel
  induction fuel with
  | zero => intro n h; omega
  | succ f ih =>
      intro n h
      by_cases h10 : n < 10
      · simp [natStrAux, h10, strVal, digitVal_digitChar n h10]
      · simp only [natStrAux, h10, if_false]
        rw [strVal_append_singleton, ih (n / 10) (by omega),
          digitVal_digitChar (n % 10) (by omega)]
        omega

theorem strVal_natStr (n : Nat) : strVal (natStr n) = n :=
  natStrAux_val (n + 1) n (by omega)

theorem natStr_injective {m n : Nat} (h : natStr m = natStr n) : m = n := by
  have := congrArg strVal h
  rwa [strVal_natStr, strVal_natStr] at this

theorem natStrAux_digits : ∀ (fuel n : Nat), n < fuel →
    ∀ c ∈ natStrAux fuel n, isDigitB c = true := by
  intro fuel
  induction fuel with
  | zero => intro n h; omega
  | succ f ih =>
      intro n h c hc
      by_cases h10 : n < 10
      · simp only [natStrAux, h10, if_true, List.mem_singleton] at hc
        subst hc
        exact isDigitB_digitChar n h10
      · simp only [natStrAux, h10, if_false, List.mem_append, List.mem_singleton] at hc
        rcases hc with hc | hc
        · exact ih (n / 10) (by omega) c hc
        · subst hc
          exact isDigitB_digitChar (n % 10) (by omega)

theorem natStr_digits (n : Nat) : ∀ c ∈ natStr n, isDigitB c = true :=
  natStrAux_digits (n + 1) n (by omega)

/-- In a string of the shape `digits ++ nondigit :: rest`, the splitting point
is unique: the first non-digit character determines it. -/
theorem first_nondigit_eq :
    ∀ (p1 p2 r1 r2 : List Char) (c1 c2 : Char),
      (∀ c ∈ p1, isDigitB c = true) → (∀ c ∈ p2, isDigitB c = true) →
      isDigitB c1 = false → isDigitB c2 = false →
      p1 ++ c1 :: r1 = p2 ++ c2 :: r2 → p1 = p2 ∧ c1 = c2 ∧ r1 = r2 := by
  intro p1
  induction p1 with
  | nil =>
      intro p2 r1 r2 c1 c2 _ hp2 hc1 hc2 h
      cases p2 with
      | nil => simpa using h
      | cons x p2' =>
          simp only [List.nil_append, List.cons_append, List.cons.injEq] at h
          exfalso
          have : isDigitB c1 = true := h.1 ▸ hp2 x (by simp)
          rw [hc1] at this
          exact Bool.noConfusion this
  | cons x p1' ih =>
      intro p2 r1 r2 c1 c2 hp1 hp2 hc1 hc2 h
      cases p2 with
      | nil =>
          simp only [List.cons_append, List.nil_append, List.cons.injEq] at h
          exfalso
          have : isDigitB c2 = true := h.1 ▸ hp1 x (by simp)
          rw [hc2] at this
          exact Bool.noConfusion this
      | cons y p2' =>
          simp only [List.cons_append, List.cons.injEq] at h
          obtain ⟨hxy, htail⟩ := h
          obtain ⟨he1, he2, he3⟩ := ih p2' r1 r2 c1 c2
            (fun c hc => hp1 c (by simp [hc])) (fun c hc => hp2 c (by simp [hc]))
            hc1 hc2 htail
          exact ⟨by rw [hxy, he1], he2, he3⟩

/-- `name1 ++ "_" ++ digits1 = name2 ++ "_" ++ digits2` forces
`name1 = name2` and `digits1 = digits2`: reading from the right, the first
non-digit character of both sides is the underscore. -/
theorem append_underscore_digits_inj {a b d1 d2 : List Char}
    (hd1 : ∀ c ∈ d1, isDigitB c = true) (hd2 : ∀ c ∈ d2, isDigitB c = true)
    (h : a ++ '_' :: d1 = b ++ '_' :: d2) : a = b ∧ d1 = d2 := by
  have hrev := congrArg List.reverse h
  simp only [List.reverse_append, List.reverse_cons] at hrev
  have hrev' : d1.reverse ++ '_' :: a.reverse = d2.reverse ++ '_' :: b.reverse := by
    simpa [List.append_assoc] using hrev
  obtain ⟨h1, _, h3⟩ := first_nondigit_eq d1.reverse d2.reverse a.reverse b.reverse '_' '_'
    (fun c hc => hd1 c (List.mem_reverse.mp hc))
    (fun c hc => hd2 c (List.mem_reverse.mp hc))
    (by decide) (by decide) hrev'
  constructor
  · have := congrArg List.reverse h3
    simpa using this
  · have := congrArg List.reverse h1
    simpa using this

/-- One ingested chunk record: the document text, its metadata
`{source, chunk_index}` and its Chroma id, exactly the three parallel lists
built by `setup_vectorstore` (`cag_system.py` lines 42-77;
`cag_system_fast.py` lines 37-68 is identical). -/
structure Triple where
  document : Str
  source : Str
  chunk_index : Nat
  id : Str
deriving DecidableEq

/-- `_split_text(text, chunk_size, overlap)` as called by ingestion: run with
the provably sufficient fuel `text.length + 1`. -/
def split_chunks (text : Str) (cs ov : Int) : List Str :=
  (split_text text cs ov (text.length + 1)).getD []

/-- The per-file body of the ingestion loop: markdown is rendered to plain
text by the external `markdown`/`BeautifulSoup` stack (abstracted as
`render`), the text is chunked with `chunk_size=1000, overlap=200`, and chunk
`j` becomes a record with metadata `{source: filename, chunk_index: j}` and id
`f"\x7bfilename\x7d_\x7bj\x7d"`. -/
def fileTriples (render : Str → Str) (filename content : Str) : List Triple :=
  let text := render content
  (split_chunks text 1000 200).enum.map fun jc =>
    { document := jc.2, source := filename, chunk_index := jc.1,
      id := filename ++ '_' :: natStr jc.1 }

/-- The ingestion loop over a directory listing (pairs of filename and file
content): files whose name ends in `.md` contribute their triples, others
nothing.  The loop's `enumerate` index `i` is unused in the source and hence
absent here. -/
def ingestTriples (render : Str → Str) (listing : List (Str × Str)) : List Triple :=
  listing.flatMap fun f =>
    if lit ".md" <:+ f.1 then fileTriples render f.1 f.2 else []

/-- `setup_vectorstore` acting on the stored collection: if the collection
already has entries (`collection.count() > 0`) it returns unchanged; otherwise
it ingests the listing and, if any documents were produced, appends them
(`collection.add`). -/
def setup_vectorstore (store : List Triple) (render : Str → Str)
    (listing : List (Str × Str)) : List Triple :=
  if 0 < store.length then store
  else
    let triples := ingestTriples render listing
    if triples = [] then store else store ++ triples

/-- C3.  Population is idempotent at the collection level: a non-empty store
is returned unchanged (nothing is inserted), and running the population twice
yields the same entry count as running it once. -/
theorem c3_setup_vectorstore_idempotent (store : List Triple)
    (render : Str → Str) (listing : List (Str × Str)) :
    (0 < store.length → setup_vectorstore store render listing = store) ∧
      (setup_vectorstore (setup_vectorstore store render listing) render listing).length =
        (setup_vectorstore store render listing).length := by
  constructor
  · intro h
    simp [setup_vectorstore, h]
  · by_cases h : 0 < store.length
    · simp [setup_vectorstore, h]
    · by_cases ht : ingestTriples render listing = []
      · simp [setup_vectorstore, h, ht]
      · have hlen : store.length = 0 := by omega
        have hstore : store = [] := List.length_eq_zero.mp hlen
        subst hstore
        have hpos : 0 < (ingestTriples render listing).length :=
          List.length_pos.mpr ht
        simp [setup_vectorstore, ht, hpos]

/-- Witness for C3 on a concrete store holding one entry and a concrete
one-file listing. -/
theorem c3_setup_vectorstore_idempotent_witness :
    (0 < ([⟨lit "x", lit "a.md", 0, lit "a.md_0"⟩] : List Triple).length →
        setup_vectorstore [⟨lit "x", lit "a.md", 0, lit "a.md_0"⟩] id
          [(lit "a.md", lit "hello")] = [⟨lit "x", lit "a.md", 0, lit "a.md_0"⟩]) ∧
      (setup_vectorstore
          (setup_vectorstore [⟨lit "x", lit "a.md", 0, lit "a.md_0"⟩] id
            [(lit "a.md", lit "hello")]) id [(lit "a.md", lit "hello")]).length =
        (setup_vectorstore [⟨lit "x", lit "a.md", 0, lit "a.md_0"⟩] id
          [(lit "a.md", lit "hello")]).length :=
  c3_setup_vectorstore_idempotent [⟨lit "x", lit "a.md", 0, lit "a.md_0"⟩] id
    [(lit "a.md", lit "hello")]

theorem fileTriples_ids (render : Str → Str) (n c : Str) :
    (fileTriples render n c).map Triple.id =
      (List.range (split_chunks (render c) 1000 200).length).map
        (fun j => n ++ '_' :: natStr j) := by
  simp only [fileTriples, List.map_map]
  rw [← List.enum_map_fst (split_chunks (render c) 1000 200), List.map_map]
  rfl

theorem fileIds_nodup (n : Str) (k : Nat) :
    ((List.range k).map (fun j => n ++ '_' :: natStr j)).Nodup := by
  refine (List.nodup_range k).map ?_
  intro j1 j2 h
  have h2 : ('_' :: natStr j1 : List Char) = '_' :: natStr j2 :=
    List.append_cancel_left h
  exact natStr_injective (List.cons.injEq _ _ _ _ ▸ h2).2

/-- C7.  Every ingested chunk gets id `"<filename>_<chunk_index>"`, and for a
corpus of distinct filenames ending in `.md`, all emitted ids are pairwise
distinct across the whole corpus. -/
theorem c7_ingest_ids_unique (render : Str → Str) (listing : List (Str × Str))
    (hnodup : (listing.map Prod.fst).Nodup)
    (_hmd : ∀ f ∈ listing, lit ".md" <:+ f.1) :
    (∀ tr ∈ ingestTriples render listing,
        tr.id = tr.source ++ '_' :: natStr tr.chunk_index) ∧
      ((ingestTriples render listing).map Triple.id).Nodup := by
  constructor
  · intro tr htr
    simp only [ingestTriples, List.mem_flatMap] at htr
    obtain ⟨f, _, htr⟩ := htr
    split at htr
    · simp only [fileTriples, List.mem_map] at htr
      obtain ⟨jc, _, rfl⟩ := htr
      rfl
    · exact absurd htr (by simp)
  · have hmap : (ingestTriples render listing).map Triple.id =
        listing.flatMap (fun f =>
          if lit ".md" <:+ f.1 then
            (List.range (split_chunks (render f.2) 1000 200).length).map
              (fun j => f.1 ++ '_' :: natStr j)
          else []) := by
      simp only [ingestTriples, List.map_flatMap]
      congr 1
      funext f
      split
      · exact fileTriples_ids render f.1 f.2
      · rfl
    rw [hmap]
    rw [List.nodup_flatMap]
    constructor
    · intro f _
      split
      · exact fileIds_nodup f.1 _
      · exact List.nodup_nil
    · have hpw : listing.Pairwise (fun f1 f2 => f1.1 ≠ f2.1) :=
        List.pairwise_map.mp hnodup
      refine hpw.imp ?_
      intro f1 f2 hne
      intro x hx1 hx2
      dsimp only at hx1 hx2
      split at hx1
      · split at hx2
        · simp only [List.mem_map, List.mem_range] at hx1 hx2
          obtain ⟨j1, _, hid1⟩ := hx1
          obtain ⟨j2, _, hid2⟩ := hx2
          have heq : f1.1 ++ '_' :: natStr j1 = f2.1 ++ '_' :: natStr j2 := by
            rw [hid1, hid2]
          exact hne (append_underscore_digits_inj (natStr_digits j1)
            (natStr_digits j2) heq).1
        · exact absurd hx2 (by simp)
      · exact absurd hx1 (by simp)

/-- Witness for C7 on the spec's two-file corpus `a.md`, `b.md`. -/
theorem c7_ingest_ids_unique_witness :
    (([(lit "a.md", lit "hello"), (lit "b.md", lit "world")].map Prod.fst).Nodup ∧
        ∀ f ∈ [(lit "a.md", lit "hello"), (lit "b.md", lit "world")],
          lit ".md" <:+ f.1) ∧
      (∀ tr ∈ ingestTriples id [(lit "a.md", lit "hello"), (lit "b.md", lit "world")],
          tr.id = tr.source ++ '_' :: natStr tr.chunk_index) ∧
        ((ingestTriples id
            [(lit "a.md", lit "hello"), (lit "b.md", lit "world")]).map
          Triple.id).Nodup :=
  ⟨⟨by decide, by decide⟩,
    c7_ingest_ids_unique id [(lit "a.md", lit "hello"), (lit "b.md", lit "world")]
      (by decide) (by decide)⟩

/-- C10.  Ingestion output is independent of directory-listing order: two
listings that are permutations of each other yield permuted (hence set-equal)
triples, since each file's triples depend only on its own name and content. -/
theorem c10_ingest_listing_order_irrelevant (render : Str → Str)
    (l1 l2 : List (Str × Str)) (h : l1.Perm l2) :
    (ingestTriples render l1).Perm (ingestTriples render l2) ∧
      ∀ tr, tr ∈ ingestTriples render l1 ↔ tr ∈ ingestTriples render l2 := by
  have hp : (ingestTriples render l1).Perm (ingestTriples render l2) := by
    unfold ingestTriples
    exact h.flatMap_right _
  exact ⟨hp, fun tr => hp.mem_iff⟩

/-- Witness for C10 on a two-file listing and its swap. -/
theorem c10_ingest_listing_order_irrelevant_witness :
    ([(lit "a.md", lit "hello"), (lit "b.md", lit "world")] : List (Str × Str)).Perm
        [(lit "b.md", lit "world"), (lit "a.md", lit "hello")] ∧
      (ingestTriples id [(lit "a.md", lit "hello"), (lit "b.md", lit "world")]).Perm
          (ingestTriples id [(lit "b.md", lit "world"), (lit "a.md", lit "hello")]) ∧
        ∀ tr, tr ∈ ingestTriples id [(lit "a.md", lit "hello"), (lit "b.md", lit "world")] ↔
          tr ∈ ingestTriples id [(lit "b.md", lit "world"), (lit "a.md", lit "hello")] :=
  ⟨List.Perm.swap _ _ _,
    c10_ingest_listing_order_irrelevant id _ _ (List.Perm.swap _ _ _)⟩

/-! ### Retrieval (`retrieve_context`) -/

/-- One retrieved context entry, the dict `{'content': ..., 'source': ...}`
built by `retrieve_context` (`cag_system.py` lines 140-148;
`cag_system_fast.py` lines 91-99 is identical). -/
structure Ctx where
  content : Str
  source : Str
deriving DecidableEq

/-- A stored metadata dictionary as read back from the collection: string keys
to string values.  Retrieval consults only the string-valued `source` key; the
integer-valued `chunk_index` key is never read by any retrieval code and is
omitted from this string-valued dictionary model. -/
abbrev RMeta := List (Str × Str)

/-- Python dict lookup `d[key]`: `none` models the raised `KeyError`. -/
def dictGet (d : RMeta) (key : Str) : Option Str :=
  match d with
  | [] => none
  | (k, v) :: rest => if k = key then some v else dictGet rest key

/-- The slice of a Chroma query result that `retrieve_context` reads:
`results['documents']` (one list per query text) and `results['metadatas']`
(`none` models a missing/`None` field, which is falsy like `[]`). -/
structure QueryResults where
  documents : List (List Str)
  metadatas : Option (List (List RMeta))

/-- The source expression
`results['metadatas'][0][i]['source'] if results['metadatas'] else 'Unknown'`:
`"Unknown"` only when the whole `metadatas` field is falsy (`None` or `[]`);
otherwise the chained lookups may raise (`IndexError`/`KeyError`). -/
def sourceOf (res : QueryResults) (i : Nat) : Except Str Str :=
  match res.metadatas with
  | none => Except.ok (lit "Unknown")
  | some [] => Except.ok (lit "Unknown")
  | some (m0 :: _) =>
      match m0.get? i with
      | none => Except.error (lit "IndexError")
      | some d =>
          match dictGet d (lit "source") with
          | none => Except.error (lit "KeyError")
          | some sv => Except.ok sv

/-- `retrieve_context`, given the query results: if
`results['documents'] and results['documents'][0]` is falsy the loop never
runs and `[]` is returned; otherwise each document at position `i` is paired
with its source via `sourceOf`, any raise failing the whole call. -/
def retrieve_context (res : QueryResults) : Except Str (List Ctx) :=
  match res.documents with
  | [] => Except.ok []
  | docs0 :: _ =>
      if docs0.isEmpty then Except.ok []
      else docs0.enum.mapM fun jd =>
        match sourceOf res jd.1 with
        | Except.ok sv => Except.ok (⟨jd.2, sv⟩ : Ctx)
        | Except.error e => Except.error e

theorem mapM_ok_of_forall {α β : Type} (f : α → Except Str β) (g : α → β) :
    ∀ (l : List α), (∀ x ∈ l, f x = Except.ok (g x)) →
      l.mapM f = Except.ok (l.map g) := by
  intro l
  induction l with
  | nil => intro _; rfl
  | cons x xs ih =>
      intro h
      rw [List.mapM_cons, h x (by simp), ih (fun y hy => h y (by simp [hy]))]
      rfl

/-- C4 (amended).  When the whole `metadatas` field of the query result is
falsy (missing/`None` or the empty list), every retrieved entry is yielded
with `source == "Unknown"` and the call succeeds. -/
theorem c4_unknown_fallback (res : QueryResults)
    (hm : res.metadatas = none ∨ res.metadatas = some []) :
    retrieve_context res =
      Except.ok ((res.documents.headD []).map fun d => (⟨d, lit "Unknown"⟩ : Ctx)) := by
  have hsrc : ∀ i, sourceOf res i = Except.ok (lit "Unknown") := by
    intro i
    rcases hm with hm | hm <;> simp [sourceOf, hm]
  rcases hres : res.documents with _ | ⟨docs0, rest⟩
  · simp [retrieve_context, hres]
  · simp only [retrieve_context, hres, List.headD_cons]
    by_cases hd : docs0.isEmpty
    · have : docs0 = [] := List.isEmpty_iff.mp hd
      simp [hd, this]
    · rw [if_neg hd]
      rw [mapM_ok_of_forall _ (fun jd => (⟨jd.2, lit "Unknown"⟩ : Ctx)) _
        (fun jd _ => by rw [hsrc jd.1])]
      congr 1
      rw [show docs0.enum.map (fun jd => (⟨jd.2, lit "Unknown"⟩ : Ctx)) =
          (docs0.enum.map Prod.snd).map (fun d => (⟨d, lit "Unknown"⟩ : Ctx)) by
        rw [List.map_map]; rfl]
      rw [List.enum_map_snd]

/-- Witness for C4 (amended) at a concrete result whose `metadatas` field is
`None`. -/
theorem c4_unknown_fallback_witness :
    ((⟨[[lit "x"]], none⟩ : QueryResults).metadatas = none ∨
        (⟨[[lit "x"]], none⟩ : QueryResults).metadatas = some []) ∧
      retrieve_context ⟨[[lit "x"]], none⟩ =
        Except.ok ((([[lit "x"]] : List (List Str)).headD []).map
          fun d => (⟨d, lit "Unknown"⟩ : Ctx)) :=
  ⟨Or.inl rfl, c4_unknown_fallback ⟨[[lit "x"]], none⟩ (Or.inl rfl)⟩

/-- Counterexample to C4 as stated: a result with one retrieved document whose
per-entry metadata is present as a dict but lacks the `source` key.  The claim
says such an entry is yielded with `source == "Unknown"` and that partial
metadata loss never fails the call; the code instead raises `KeyError` (the
guard only tests whether the whole `metadatas` field is falsy), so the whole
retrieval fails. -/
theorem c4_counterexample :
    retrieve_context ⟨[[lit "x"]], some [[[]]]⟩ = Except.error (lit "KeyError") ∧
      ∀ l, retrieve_context ⟨[[lit "x"]], some [[[]]]⟩ ≠ Except.ok l := by
  refine ⟨rfl, ?_⟩
  intro l h
  rw [show retrieve_context ⟨[[lit "x"]], some [[[]]]⟩ =
    Except.error (lit "KeyError") from rfl] at h
  exact Except.noConfusion h

/-- Modelled from the spec: the Index Store's `query(query_text, k)`
(spec 4.3 and 6) returns the `k` nearest stored entries, most-similar first;
the similarity ranking is the opaque embedding service's, so it enters the
model as an arbitrary ranked enumeration `ranked` of the stored entries.  The
result carries parallel `documents` and `metadatas` lists as Chroma returns
them (for an empty collection: `[[]]` for both). -/
def collectionQuery (ranked : List Triple) (k : Nat) : QueryResults :=
  { documents := [(ranked.take k).map Triple.document]
    metadatas := some [(ranked.take k).map fun tr => [(lit "source", tr.source)]] }

theorem enumFrom_mem_bound {α : Type} :
    ∀ (l : List α) (n i : Nat) (d : α), (i, d) ∈ l.enumFrom n → i < n + l.length := by
  intro l
  induction l with
  | nil => intro n i d h; exact absurd h (by simp)
  | cons x xs ih =>
      intro n i d h
      rw [List.enumFrom_cons] at h
      rcases List.mem_cons.mp h with h | h
      · have : i = n := congrArg Prod.fst h
        simp [this]
      · have := ih (n + 1) i d h
        simp only [List.length_cons]
        omega

/-- C9.  Retrieval over a store with fewer than `k` entries returns fewer
than `k` results, and over an empty store returns the empty sequence, not an
error; in general the number of results is `min k (store size)`. -/
theorem c9_retrieve_bounded (ranked : List Triple) (k : Nat) :
    ∃ ctxs, retrieve_context (collectionQuery ranked k) = Except.ok ctxs ∧
      ctxs.length = min k ranked.length ∧
      (ranked.length < k → ctxs.length < k) ∧
      (ranked = [] → ctxs = []) := by
  set docs0 := (ranked.take k).map Triple.document with hdocs0
  have hlen0 : docs0.length = min k ranked.length := by
    rw [hdocs0, List.length_map, List.length_take]
  have hsrc : ∀ i, i < docs0.length →
      ∃ sv, sourceOf (collectionQuery ranked k) i = Except.ok sv := by
    intro i hi
    have hib : i < (ranked.take k).length := by
      rw [hdocs0, List.length_map] at hi
      exact hi
    have hm : (((ranked.take k).map fun tr =>
        ([(lit "source", tr.source)] : RMeta)).get? i) =
          some [(lit "source", ((ranked.take k).get ⟨i, hib⟩).source)] := by
      rw [List.get?_eq_getElem?, List.getElem?_map, List.getElem?_eq_getElem hib]
      rfl
    refine ⟨((ranked.take k).get ⟨i, hib⟩).source, ?_⟩
    simp only [sourceOf, collectionQuery]
    rw [hm]
    simp [dictGet]
  rcases hcase : docs0 with _ | ⟨d0, drest⟩
  · refine ⟨[], ?_, ?_, ?_, fun _ => rfl⟩
    · simp [retrieve_context, collectionQuery, ← hdocs0, hcase]
    · rw [← hlen0, hcase]; rfl
    · intro hk
      simp only [List.length_nil]
      omega
  · have hne : ¬ docs0.isEmpty := by rw [hcase]; simp
    have hexists : ∀ jd ∈ docs0.enum,
        ∃ c, (match sourceOf (collectionQuery ranked k) jd.1 with
          | Except.ok sv => Except.ok (⟨jd.2, sv⟩ : Ctx)
          | Except.error e => Except.error e) = Except.ok c := by
      intro jd hjd
      have hb : jd.1 < docs0.length := by
        have := enumFrom_mem_bound docs0 0 jd.1 jd.2 hjd
        omega
      obtain ⟨sv, hsv⟩ := hsrc jd.1 hb
      exact ⟨⟨jd.2, sv⟩, by rw [hsv]⟩
    -- turn the pointwise success into a mapM success of the mapped list
    have hg : ∀ jd ∈ docs0.enum,
        (match sourceOf (collectionQuery ranked k) jd.1 with
          | Except.ok sv => Except.ok (⟨jd.2, sv⟩ : Ctx)
          | Except.error e => Except.error e) =
          Except.ok (⟨jd.2, (sourceOf (collectionQuery ranked k) jd.1).toOption.getD
            (lit "Unknown")⟩ : Ctx) := by
      intro jd hjd
      obtain ⟨c, hc⟩ := hexists jd hjd
      cases hsv : sourceOf (collectionQuery ranked k) jd.1 with
      | ok sv => simp [Except.toOption]
      | error e => rw [hsv] at hc; exact absurd hc (by simp)
    have hmapM := mapM_ok_of_forall _
      (fun jd => (⟨jd.2, (sourceOf (collectionQuery ranked k) jd.1).toOption.getD
        (lit "Unknown")⟩ : Ctx)) docs0.enum hg
    refine ⟨docs0.enum.map (fun jd =>
        (⟨jd.2, (sourceOf (collectionQuery ranked k) jd.1).toOption.getD
          (lit "Unknown")⟩ : Ctx)), ?_, ?_, ?_, ?_⟩
    · simp only [retrieve_context, collectionQuery, ← hdocs0]
      rw [if_neg (by rw [hcase] at hne ⊢; exact hne)]
      exact hmapM
    · rw [List.length_map, List.enum_length, hlen0]
    · intro hk
      rw [List.length_map, List.enum_length, hlen0]
      omega
    · intro hr
      subst hr
      have : docs0 = [] := by rw [hdocs0]; simp
      rw [hcase] at this
      exact absurd this (by simp)

/-- Witness for C9: an empty, never-populated store queried with `k = 5`
yields the empty sequence. -/
theorem c9_retrieve_bounded_witness :
    ∃ ctxs, retrieve_context (collectionQuery [] 5) = Except.ok ctxs ∧
      ctxs.length = min 5 ([] : List Triple).length ∧
      (([] : List Triple).length < 5 → ctxs.length < 5) ∧
      (([] : List Triple) = [] → ctxs = []) :=
  c9_retrieve_bounded [] 5

/-! ### Context augmentation pipeline (`augment_context`, `cag_system.py`
lines 150-210) -/

/-- Python `sep.join(parts)`. -/
def joinSep (sep : Str) : List Str → Str
  | [] => []
  | [x] => x
  | x :: xs => x ++ sep ++ joinSep sep xs

/-- `context_str`: each retrieved chunk rendered as
`f"From \x7bctx['source']\x7d:\n\x7bctx['content']\x7d"`, joined with blank lines. -/
def context_str (ictx : List Ctx) : Str :=
  joinSep (lit "\n\n") (ictx.map fun ctx => lit "From " ++ ctx.source ++ lit ":\n" ++ ctx.content)

inductive StageId where
  | analysis
  | augmentation
  | generation
deriving DecidableEq

/-- A CrewAI `Task` as built by `augment_context`: its description and the
list of prior tasks whose outputs it receives as context. -/
structure CrewTask where
  description : Str
  contextStages : List StageId

/-- Description of the context-analysis task (an f-string over the query and
the formatted context pieces). -/
def analysisDescription (query ctxStr : Str) : Str :=
  lit "Analyze the following context pieces from Bella Terra's menus for the query: '" ++
    query ++ lit "'\n\nContext pieces:\n" ++ ctxStr ++
    lit "\n\nIdentify key information, relationships between menu items, price patterns,\nand any gaps in the context. Focus on understanding the restaurant's offerings."

/-- Description of the augmentation task: a fixed literal, mentioning neither
the query nor the raw chunks. -/
def augmentationDescription : Str :=
  lit "Based on the context analysis, augment the information by:\n1. Identifying implicit relationships between menu items, prices, and categories\n2. Inferring additional relevant details about ingredients or preparation methods\n3. Suggesting related menu items or pairings that might be helpful\n4. Highlighting any special patterns, pricing tiers, or menu groupings\n5. Making connections between different menu sections (pizza, pasta, wine, etc.)"

/-- Description of the response-generation task (an f-string over the query). -/
def generationDescription (query : Str) : Str :=
  lit "Using all the analyzed and augmented context about Bella Terra,\ngenerate a comprehensive response to the query: '" ++ query ++
    lit "'\n\nEnsure the response is:\n- Accurate to the source menu data\n- Enhanced with the augmented insights about relationships and patterns\n- Well-structured and easy to understand\n- Complete with all relevant details including prices where applicable\n- Helpful for someone trying to understand Bella Terra's offerings"

def context_analysis_task (query ctxStr : Str) : CrewTask :=
  ⟨analysisDescription query ctxStr, []⟩

def augmentation_task : CrewTask :=
  ⟨augmentationDescription, [StageId.analysis]⟩

def generation_task (query : Str) : CrewTask :=
  ⟨generationDescription query, [StageId.analysis, StageId.augmentation]⟩

/-- The task list handed to the crew, in source order, with
`process=Process.sequential`. -/
def crewTasks (query : Str) (ictx : List Ctx) : List (StageId × CrewTask) :=
  [(StageId.analysis, context_analysis_task query (context_str ictx)),
   (StageId.augmentation, augmentation_task),
   (StageId.generation, generation_task query)]

/-- What one stage's model invocation receives: the task's own description and
the outputs of the tasks named in its `context` list. -/
structure StageInput where
  description : Str
  contextOutputs : List Str

/-- Modelled from the spec: CrewAI's `Process.sequential` crew execution
(spec section 6: a generative-model service "capable of sequential task
execution with explicit inter-task context passing (task n+1 receives task
n's output as part of its input)").  Tasks run strictly in list order; each
task's invocation receives its description plus the already-computed outputs
of its `context` tasks — only earlier tasks can contribute, because later
outputs do not exist yet. -/
def runCrew (model : StageInput → Str) (tasks : List (StageId × CrewTask)) :
    List (StageId × StageInput × Str) :=
  tasks.foldl (fun done st =>
    let input : StageInput :=
      ⟨st.2.description,
        st.2.contextStages.filterMap fun c =>
          (done.find? fun e => e.1 == c).map fun e => e.2.2⟩
    done ++ [(st.1, input, model input)]) []

/-- `augment_context`: run the crew over the three tasks and return the final
(kickoff) output, which is the last task's output. -/
def augment_context (model : StageInput → Str) (query : Str) (ictx : List Ctx) : Str :=
  match (runCrew model (crewTasks query ictx)).getLast? with
  | some e => e.2.2
  | none => lit ""

/-- `part` occurs contiguously inside `s`. -/
def strContains (s part : Str) : Prop := ∃ pre post, s = pre ++ part ++ post

theorem strContains_of_inner (X Y s part : Str) (h : strContains s part) :
    strContains (X ++ s ++ Y) part := by
  obtain ⟨a, b, rfl⟩ := h
  exact ⟨X ++ a, b ++ Y, by simp [List.append_assoc]⟩

theorem mem_joinSep_contains (sep : Str) :
    ∀ (l : List Str) (x : Str), x ∈ l → strContains (joinSep sep l) x := by
  intro l
  induction l with
  | nil => intro x hx; exact absurd hx (by simp)
  | cons a t ih =>
      intro x hx
      rcases t with _ | ⟨b, t2⟩
      · have : x = a := by simpa using hx
        subst this
        exact ⟨[], [], by simp [joinSep]⟩
      · rcases List.mem_cons.mp hx with hx | hx
        · subst hx
          exact ⟨[], sep ++ joinSep sep (b :: t2), by simp [joinSep, List.append_assoc]⟩
        · obtain ⟨pre, post, hpp⟩ := ih x hx
          refine ⟨a ++ sep ++ pre, post, ?_⟩
          simp [joinSep, hpp, List.append_assoc]

/-- C6.  In the augmentation path the three stages run strictly sequentially
in the order analysis, augmentation, generation, and stage `n` consumes only
outputs of earlier stages: the analysis invocation receives the query and the
source-prefixed retrieved chunks and no prior outputs; the augmentation
invocation receives a fixed instruction plus exactly the analysis output (not
the raw chunks); the generation invocation receives the query together with
exactly the analysis output and the augmentation output. -/
theorem c6_pipeline_sequencing (model : StageInput → Str) (query : Str)
    (ictx : List Ctx) :
    runCrew model (crewTasks query ictx) =
        [(StageId.analysis,
            ⟨analysisDescription query (context_str ictx), []⟩,
            model ⟨analysisDescription query (context_str ictx), []⟩),
         (StageId.augmentation,
            ⟨augmentationDescription,
              [model ⟨analysisDescription query (context_str ictx), []⟩]⟩,
            model ⟨augmentationDescription,
              [model ⟨analysisDescription query (context_str ictx), []⟩]⟩),
         (StageId.generation,
            ⟨generationDescription query,
              [model ⟨analysisDescription query (context_str ictx), []⟩,
               model ⟨augmentationDescription,
                 [model ⟨analysisDescription query (context_str ictx), []⟩]⟩]⟩,
            model ⟨generationDescription query,
              [model ⟨analysisDescription query (context_str ictx), []⟩,
               model ⟨augmentationDescription,
                 [model ⟨analysisDescription query (context_str ictx), []⟩]⟩]⟩)] ∧
      strContains (analysisDescription query (context_str ictx)) query ∧
      (∀ c ∈ ictx, strContains (analysisDescription query (context_str ictx))
          (lit "From " ++ c.source ++ lit ":\n" ++ c.content)) ∧
      strContains (generationDescription query) query := by
  refine ⟨rfl, ?_, ?_, ?_⟩
  · exact ⟨lit "Analyze the following context pieces from Bella Terra's menus for the query: '",
      lit "'\n\nContext pieces:\n" ++ context_str ictx ++
        lit "\n\nIdentify key information, relationships between menu items, price patterns,\nand any gaps in the context. Focus on understanding the restaurant's offerings.",
      by simp [analysisDescription, List.append_assoc]⟩
  · intro c hc
    have hin : strContains (context_str ictx)
        (lit "From " ++ c.source ++ lit ":\n" ++ c.content) := by
      apply mem_joinSep_contains
      exact List.mem_map.mpr ⟨c, hc, rfl⟩
    have := strContains_of_inner
      (lit "Analyze the following context pieces from Bella Terra's menus for the query: '" ++
        query ++ lit "'\n\nContext pieces:\n")
      (lit "\n\nIdentify key information, relationships between menu items, price patterns,\nand any gaps in the context. Focus on understanding the restaurant's offerings.")
      _ _ hin
    obtain ⟨pre, post, hpp⟩ := this
    refine ⟨pre, post, ?_⟩
    rw [← hpp]
    simp [analysisDescription, List.append_assoc]
  · exact ⟨lit "Using all the analyzed and augmented context about Bella Terra,\ngenerate a comprehensive response to the query: '",
      lit "'\n\nEnsure the response is:\n- Accurate to the source menu data\n- Enhanced with the augmented insights about relationships and patterns\n- Well-structured and easy to understand\n- Complete with all relevant details including prices where applicable\n- Helpful for someone trying to understand Bella Terra's offerings",
      by simp [generationDescription, List.append_assoc]⟩

/-- Witness for C6 at a concrete model, query and single retrieved chunk. -/
theorem c6_pipeline_sequencing_witness :
    (⟨lit "pasta dishes", lit "menu.md"⟩ : Ctx) ∈
        [(⟨lit "pasta dishes", lit "menu.md"⟩ : Ctx)] ∧
      strContains
        (analysisDescription (lit "wine pairing")
          (context_str [⟨lit "pasta dishes", lit "menu.md"⟩]))
        (lit "From " ++ lit "menu.md" ++ lit ":\n" ++ lit "pasta dishes") :=
  ⟨by simp,
    (c6_pipeline_sequencing (fun _ => lit "out") (lit "wine pairing")
        [⟨lit "pasta dishes", lit "menu.md"⟩]).2.2.1
      ⟨lit "pasta dishes", lit "menu.md"⟩ (by simp)⟩

/-! ### `process_query`: full pipeline (`cag_system.py` lines 212-231) and
fast path (`cag_system_fast.py` lines 101-143), and the caller-facing
endpoint (`api.py`) -/

/-- The record returned by both `process_query` implementations:
`{"query": ..., "initial_context": ..., "augmented_response": ...}`. -/
structure PQResult where
  query : Str
  initial_context : List Ctx
  augmented_response : Str
deriving DecidableEq

/-- `CAGSystem.process_query`: retrieve the top-5 context (default `k=5`),
then run the three-stage crew; an exception from retrieval propagates (there
is no handler in the method).  `collQuery` abstracts the Chroma
`collection.query` call, `model` the generative backend. -/
def processQueryCAG (collQuery : Str → Nat → QueryResults)
    (model : StageInput → Str) (query : Str) : Except Str PQResult :=
  match retrieve_context (collQuery query 5) with
  | Except.error e => Except.error e
  | Except.ok ictx =>
      Except.ok ⟨query, ictx, augment_context model query ictx⟩

/-- The fast path's single prompt (an f-string over the formatted context and
the query). -/
def fastPrompt (ctxStr query : Str) : Str :=
  lit "You are an AI assistant for Bella Terra restaurant. Using the following context from the restaurant's menus, answer the customer's question.\n\nContext:\n" ++
    ctxStr ++ lit "\n\nCustomer Question: " ++ query ++
    lit "\n\nProvide a helpful, accurate response based on the menu information. If prices are mentioned, include them. Be friendly and informative."

/-- The fast path's fixed system instruction. -/
def fastSystemMessage : Str := lit "You are a helpful restaurant assistant."

/-- `CAGSystemFast.process_query`: the same retrieval (its
`retrieve_context` is textually identical to the full system's, embedded once
above), then one chat completion with the fixed system message and fixed
decoding parameters.  `complete` abstracts the OpenAI call as
`(system instruction, user prompt) -> answer`. -/
def processQueryFast (collQuery : Str → Nat → QueryResults)
    (complete : Str → Str → Str) (query : Str) : Except Str PQResult :=
  match retrieve_context (collQuery query 5) with
  | Except.error e => Except.error e
  | Except.ok ictx =>
      Except.ok ⟨query, ictx,
        complete fastSystemMessage (fastPrompt (context_str ictx) query)⟩

/-- C5.  Both paths implement one `process_query` contract: for every query
and every backend, the two implementations agree on the `(query,
initial_context)` projection of their result — both echo the input query
unchanged and both report as `initial_context` exactly the outcome of the
shared `retrieve_context` logic at `k = 5` over the same collection — they
succeed or fail together, and each returns its answer in the same
`augmented_response` field of the same record type, so callers need not know
which path is active. -/
theorem c5_process_query_interchangeable (collQuery : Str → Nat → QueryResults)
    (model : StageInput → Str) (complete : Str → Str → Str) (query : Str) :
    (processQueryCAG collQuery model query).map (fun r => (r.query, r.initial_context)) =
        (retrieve_context (collQuery query 5)).map (fun ictx => (query, ictx)) ∧
      (processQueryFast collQuery complete query).map (fun r => (r.query, r.initial_context)) =
          (retrieve_context (collQuery query 5)).map (fun ictx => (query, ictx)) ∧
        (processQueryCAG collQuery model query).map (fun r => (r.query, r.initial_context)) =
          (processQueryFast collQuery complete query).map
            (fun r => (r.query, r.initial_context)) := by
  refine ⟨?_, ?_, ?_⟩ <;>
    · simp only [processQueryCAG, processQueryFast]
      cases retrieve_context (collQuery query 5) <;> rfl

/-- A `QueryRequest` (`api.py` lines 35-37): pydantic validates
`min_length=1, max_length=500` on `query` before the handler runs. -/
structure QueryRequest where
  query : Str
  session_id : Option Str

inductive ApiError where
  /-- FastAPI 422: the request body fails `QueryRequest` validation. -/
  | validationError
  /-- HTTP 503 `"CAG System not initialized"` (startup failed, e.g. the
  index store was unreachable, leaving `cag_system = None`). -/
  | serviceUnavailable
  /-- HTTP 500 `"OpenAI API key not configured"`. -/
  | keyMissing
  /-- HTTP 500 `"Error processing query: ..."`: any exception raised inside
  `process_query` is caught and re-surfaced as an error. -/
  | internalError (e : Str)
deriving DecidableEq

/-- The `/query` endpoint (`api.py` lines 80-110): request validation, the
`cag_system` initialization check, the API-key check, then `process_query`
with exceptions wrapped as HTTP 500.  `cag` is `none` when startup failed. -/
def process_query_endpoint (cag : Option (Str → Except Str PQResult))
    (openai_key : Bool) (req : QueryRequest) : Except ApiError Str :=
  if ¬ (1 ≤ req.query.length ∧ req.query.length ≤ 500) then
    Except.error ApiError.validationError
  else
    match cag with
    | none => Except.error ApiError.serviceUnavailable
    | some pq =>
        if ¬ openai_key then Except.error ApiError.keyMissing
        else
          match pq req.query with
          | Except.ok r => Except.ok r.augmented_response
          | Except.error e => Except.error (ApiError.internalError e)

/-- C8.  The caller-facing `process_query` contract fails rather than
silently degrading: an empty query is rejected (the `QueryRequest`
`min_length=1` validation fires before any processing), an uninitialized
system (e.g. the Index Store was unreachable at startup, so `cag_system` is
`None`) yields HTTP 503, and an Index-Store failure while processing
propagates out of `process_query` and is surfaced as an HTTP 500 error. -/
theorem c8_process_query_failure_modes
    (cag : Option (Str → Except Str PQResult)) (key : Bool) (req : QueryRequest) :
    (req.query = [] → process_query_endpoint cag key req =
        Except.error ApiError.validationError) ∧
      (cag = none → 1 ≤ req.query.length → req.query.length ≤ 500 →
          process_query_endpoint cag key req =
            Except.error ApiError.serviceUnavailable) ∧
        (∀ pq err, cag = some pq → pq req.query = Except.error err →
            1 ≤ req.query.length → req.query.length ≤ 500 → key = true →
            process_query_endpoint cag key req =
              Except.error (ApiError.internalError err)) := by
  refine ⟨?_, ?_, ?_⟩
  · intro h
    have hlen : req.query.length = 0 := by rw [h]; rfl
    simp [process_query_endpoint, hlen]
  · intro hc h1 h2
    unfold process_query_endpoint
    rw [if_neg (by omega), hc]
  · intro pq err hc herr h1 h2 hkey
    unfold process_query_endpoint
    rw [if_neg (by omega), hc]
    simp only [hkey, not_true_eq_false, if_false]
    rw [herr]

/-- Witness for C8: the three failure modes at concrete inputs (an empty
query; an uninitialized system; a store failure during processing). -/
theorem c8_process_query_failure_modes_witness :
    (process_query_endpoint none false ⟨[], none⟩ =
        Except.error ApiError.validationError) ∧
      (process_query_endpoint none true ⟨lit "hi", none⟩ =
          Except.error ApiError.serviceUnavailable) ∧
        (process_query_endpoint
            (some fun _ => Except.error (lit "IndexUnavailable")) true
            ⟨lit "hi", none⟩ =
          Except.error (ApiError.internalError (lit "IndexUnavailable"))) :=
  ⟨(c8_process_query_failure_modes none false ⟨[], none⟩).1 rfl,
    (c8_process_query_failure_modes none true ⟨lit "hi", none⟩).2.1 rfl
      (by decide) (by decide),
    (c8_process_query_failure_modes
        (some fun _ => Except.error (lit "IndexUnavailable")) true
        ⟨lit "hi", none⟩).2.2
      (fun _ => Except.error (lit "IndexUnavailable")) (lit "IndexUnavailable")
      rfl rfl (by decide) (by decide) rfl⟩

end CAG
